import Mathlib

/-!
Verification development for `ddcc.py`, a distributed double-difference
cross-correlation pipeline (one writer rank aggregating results, worker ranks
correlating event pairs).

The embedding below translates the control flow and selection logic of the
source into Lean:

* event / phase catalog rows become structures over exact rationals;
* `get_knn` (source lines 188-203) and `get_phases` (lines 205-216) are
  translated directly; pandas `sort_values` / `sort_index` are modelled by a
  stable comparison sort (`List.insertionSort`).  The source computes
  `np.sqrt(...)` for the distance column; since `Real.sqrt` is monotone and
  vanishes exactly on zero, sorting by the radicand (`distSq`) is equivalent
  and keeps the definition executable.  Theorem statements about distances are
  phrased through `Real.sqrt` of the radicand;
* the per-channel numeric work of `correlate` (waveform retrieval, band-pass
  filter, slicing, `obspy` cross-correlation, lines 279-382) is external to
  the specified core; it is abstracted by a `ChanOutcome` per channel
  (`missing` = the `continue` branches: channel absent on the test stream or
  too few samples; `value dd cc` = a computed candidate; `err` = an exception
  raised while processing the channel) and a `WfProvider` oracle (`none`
  models the `KeyError` raised during waveform retrieval).  All acceptance,
  selection, emission and error-propagation logic is translated faithfully;
* the `grpid`/`dsid` strings "{evidA}/{evidB}/{sta}[/{phase}]" built at lines
  393-397 and re-split by the writer at line 450 are modelled structurally by
  the fields of `CorrData`;
* the writer rank (`write_loop`, lines 433-460, with the empty datasets
  created at lines 424-431) is modelled as an explicit state machine; the
  seven output columns are always resized together, so a single capacity
  field models the allocated shape shared by every column.
-/

namespace Ddcc

/-- Fixed output growth block, source line 23. -/
def OUTPUT_BLOCK_SIZE : Nat := 1000

/-- The configuration options of `parse_config` that the modelled core reads
directly (`corr_min`, `knn`); window lengths and filter corners only feed the
abstracted numeric primitives. -/
structure Config where
  corr_min : ℚ
  knn : Nat
deriving DecidableEq

/-- One row of the event catalog `df0_event`: indexed by event id with columns
lat, lon, depth, time (source docstring lines 234-237). -/
structure Event where
  id : Nat
  lat : ℚ
  lon : ℚ
  depth : ℚ
  time : ℚ
deriving DecidableEq

/-- One row of the phase catalog `df0_phase`: indexed by event id with columns
sta, chan, phase, net, time (source docstring lines 238-241; the unused
`arid`/`prefor` columns are omitted). -/
structure Phase where
  evid : Nat
  sta : String
  chan : String
  phase : String
  net : String
  time : ℚ
deriving DecidableEq

/-- Radicand of the distance computed at source lines 199-202:
`(square(lat-lat0) + square(lon-lon0)) * 111.11**2 + square(depth-depth0)`.
The source takes `np.sqrt` of this; sorting by the radicand is equivalent. -/
def distSq (e0 e : Event) : ℚ :=
  ((e.lat - e0.lat) ^ 2 + (e.lon - e0.lon) ^ 2) * (11111 / 100) ^ 2
    + (e.depth - e0.depth) ^ 2

/-- Comparison used by `sort_values("distance")` at source line 203. -/
def knnLE (e0 : Event) (a b : Event) : Prop := distSq e0 a ≤ distSq e0 b

instance (e0 : Event) : DecidableRel (knnLE e0) := fun a b =>
  inferInstanceAs (Decidable (distSq e0 a ≤ distSq e0 b))

instance (e0 : Event) : IsTotal Event (knnLE e0) :=
  ⟨fun a b => le_total (distSq e0 a) (distSq e0 b)⟩

instance (e0 : Event) : IsTrans Event (knnLE e0) :=
  ⟨fun _ _ _ h h2 => le_trans h h2⟩

/-- `get_knn` (source lines 188-203): look up the primary event row
(`df_event.loc[evid]`; `none` models the `KeyError` when the id is absent),
keep rows with `index >= evid`, sort by the distance column, take the first
`k+1` rows. -/
def get_knn (evid : Nat) (df_event : List Event) (k : Nat) : Option (List Event) :=
  match df_event.find? (fun e => e.id == evid) with
  | none => none
  | some e0 =>
      some ((List.insertionSort (knnLE e0)
        (df_event.filter (fun e => decide (evid ≤ e.id)))).take (k + 1))

/-- Comparison used by `sort_index()` at source line 214. -/
def evidLE (p q : Phase) : Prop := p.evid ≤ q.evid

instance : DecidableRel evidLE := fun p q =>
  inferInstanceAs (Decidable (p.evid ≤ q.evid))

/-- Comparison used by `sort_values(["sta", "phase"])` at source line 215:
lexicographic on the station then the phase label. -/
def staPhaseLE (p q : Phase) : Prop :=
  p.sta < q.sta ∨ (p.sta = q.sta ∧ p.phase ≤ q.phase)

instance : DecidableRel staPhaseLE := fun p q =>
  inferInstanceAs (Decidable (p.sta < q.sta ∨ (p.sta = q.sta ∧ p.phase ≤ q.phase)))

/-- `get_phases` (source lines 205-216): keep rows whose event id is in
`evids`, sort by index, then sort by (sta, phase). -/
def get_phases (evids : List Nat) (df_phase : List Phase) : List Phase :=
  List.insertionSort staPhaseLE
    (List.insertionSort evidLE (df_phase.filter (fun p => decide (p.evid ∈ evids))))

/-- `drop_duplicates(["sta", "phase"])` at source line 268 keeps the first row
of each (sta, phase) key; `seen` accumulates the keys already kept. -/
def dropDupSeen : List Phase → List (String × String) → List Phase
  | [], _ => []
  | p :: rest, seen =>
      if (p.sta, p.phase) ∈ seen then dropDupSeen rest seen
      else p :: dropDupSeen rest ((p.sta, p.phase) :: seen)

/-- `_df_phase.drop_duplicates(["sta", "phase"])`, source line 268. -/
def drop_duplicates (l : List Phase) : List Phase := dropDupSeen l []

/-- Abstract outcome of processing one template-stream channel inside the
`for tr0 in st0` loop (source lines 304-389): `missing` covers the `continue`
branches (test stream lacks the channel, line 306-308, or a sliced window is
shorter than `min_nsamp`, lines 345-350); `value dd cc` is a computed
candidate `(_ddiff, _ccmax)`; `err` is an exception raised while processing
the channel (for example a failure of the correlation primitive). -/
inductive ChanOutcome
  | missing
  | value (dd cc : ℚ)
  | err
deriving DecidableEq

/-- The channels of the template stream for one arrival, each with the
channel name `tr0.stats.channel` and its processing outcome. -/
abbrev Chans := List (String × ChanOutcome)

/-- Oracle abstracting `get_waveforms_for_reference` for both events together
with the per-channel numeric pipeline: given the two event ids of the pair
and the arrival row, `none` models the `KeyError` raised during waveform
retrieval (source lines 279-293). -/
abbrev WfProvider := Nat → Nat → Phase → Option Chans

/-- One iteration item of the arrival loop: the (deduplicated) pick row and
the outcome of waveform retrieval for it. -/
structure Arrival where
  pick : Phase
  wf : Option Chans
deriving DecidableEq

/-- The payload `data` dict built at source lines 404-409, with the
`grpid`/`dsid` strings represented structurally (the writer re-splits `dsid`
into exactly these fields at source lines 450-457). -/
structure CorrData where
  evidA : Nat
  evidB : Nat
  sta : String
  phase : String
  chan : String
  ddiff : ℚ
  ccmax : ℚ
deriving DecidableEq

/-- A message received by the writer rank: a data dict, `None`, or the
`StopIteration` sentinel (source lines 440-445). -/
inductive Msg
  | result (d : CorrData)
  | noop
  | done
deriving DecidableEq

/-- The accepted-candidate accumulation of the channel loop (source lines
304-389): `missing` channels are skipped, a candidate is appended to the
parallel `ddiff`/`ccmax` lists only when `abs(_ccmax) >= cfg["corr_min"]`
(line 385), and an exception aborts the loop keeping the candidates gathered
so far (the Boolean reports whether an exception escaped). -/
def runChannels (corr_min : ℚ) : Chans → List (ℚ × ℚ) × Bool
  | [] => ([], false)
  | (_, ChanOutcome.missing) :: rest => runChannels corr_min rest
  | (_, ChanOutcome.err) :: _ => ([], true)
  | (_, ChanOutcome.value dd cc) :: rest =>
      if corr_min ≤ |cc| then
        let r := runChannels corr_min rest
        ((dd, cc) :: r.1, r.2)
      else runChannels corr_min rest

/-- `np.argmax(np.abs(ccmax))` (source line 398): the first candidate whose
coefficient has maximal absolute value. -/
def argmaxAbs : List (ℚ × ℚ) → Option (ℚ × ℚ)
  | [] => none
  | p :: rest =>
      match argmaxAbs rest with
      | none => some p
      | some q => if |p.2| < |q.2| then some q else some p

/-- The `finally` block of the channel loop (source lines 390-411): when at
least one candidate was stored, emit the candidate selected by `argmaxAbs`
with the group/dataset identifiers and the arrival's own `chan` column;
otherwise `data = None`. -/
def finalizeArrival (evid0 evidB : Nat) (pick : Phase) (cands : List (ℚ × ℚ)) :
    Option CorrData :=
  match argmaxAbs cands with
  | none => none
  | some c =>
      some { evidA := evid0, evidB := evidB, sta := pick.sta, phase := pick.phase,
             chan := pick.chan, ddiff := c.1, ccmax := c.2 }

/-- One iteration of the arrival loop (source lines 270-415).  A failed
waveform retrieval (`KeyError`, line 292) executes `continue` before the
`try/finally` region, so nothing is sent.  Otherwise the channel loop runs
and the `finally` block unconditionally sends exactly one message (the data
dict or `None`); the Boolean reports an exception escaping the channel loop,
which the source re-raises after the `finally` block. -/
def processArrival (corr_min : ℚ) (evid0 evidB : Nat) (a : Arrival) :
    Option Msg × Bool :=
  match a.wf with
  | none => (none, false)
  | some chans =>
      let r := runChannels corr_min chans
      match finalizeArrival evid0 evidB a.pick r.1 with
      | some d => (some (Msg.result d), r.2)
      | none => (some Msg.noop, r.2)

/-- The arrival loop for one event pair: messages sent, and whether an
exception escaped (aborting the remaining arrivals of the pair). -/
def correlatePair (corr_min : ℚ) (evid0 evidB : Nat) : List Arrival → List Msg × Bool
  | [] => ([], false)
  | a :: rest =>
      let pr := processArrival corr_min evid0 evidB a
      if pr.2 then (pr.1.toList, true)
      else
        let r := correlatePair corr_min evid0 evidB rest
        (pr.1.toList ++ r.1, r.2)

/-- Arrival selection for one pair (source lines 267-270): restrict the phase
frame to the two ids, deduplicate on (sta, phase), and attach the waveform
oracle's answer for each retained pick. -/
def selectArrivals (wf : WfProvider) (evid0 evidB : Nat) (df_phase : List Phase) :
    List Arrival :=
  (drop_duplicates (get_phases [evid0, evidB] df_phase)).map
    (fun p => { pick := p, wf := wf evid0 evidB p })

/-- The neighbour-pair loop of `correlate` (source line 255): an exception
escaping one pair's arrival loop aborts the remaining pairs. -/
def correlatePairs (cfg : Config) (wf : WfProvider) (evid0 : Nat)
    (df_phase : List Phase) : List Nat → List Msg × Bool
  | [] => ([], false)
  | evidB :: rest =>
      let r := correlatePair cfg.corr_min evid0 evidB
        (selectArrivals wf evid0 evidB df_phase)
      if r.2 then (r.1, true)
      else
        let r2 := correlatePairs cfg wf evid0 df_phase rest
        (r.1 ++ r2.1, r2.2)

/-- `correlate` (source lines 218-422) for one assigned primary event id:
nearest neighbours, the pair-restricted phase frame, then the pair loop.
A `KeyError` from `get_knn` or an empty neighbour frame (`iloc[0]` raising)
propagates to the per-event handler in `main`, with no message sent. -/
def correlate (cfg : Config) (wf : WfProvider) (df0_event : List Event)
    (df0_phase : List Phase) (evid : Nat) : List Msg × Bool :=
  match get_knn evid df0_event cfg.knn with
  | none => ([], true)
  | some df_event =>
      match df_event with
      | [] => ([], true)
      | event0 :: rest =>
          correlatePairs cfg wf event0.id
            (get_phases (df_event.map Event.id) df0_phase) (rest.map Event.id)

/-- The worker-rank control flow of `main` (source lines 58-113).  Three
prologue stages run before the protected `try/finally` region, and a failure
in any of them exits the worker without sending anything: loading the
event/phase catalog (`load_event_data`, line 63, `catalogOk`), opening the
optional control file (lines 66-70, `controlOk`; vacuously successful when no
control file is given), and the HDF5 cache setup (lines 86-92, `cacheOk`).
Once the `try` at line 93 is entered, the `finally` at lines 111-113 always
sends `StopIteration`: if opening the waveform dataset raises
(`wfOpenOk = false`) the exception is caught at line 108 and only the
sentinel is sent; otherwise each assigned event is correlated under a
per-event handler (lines 101-106) that logs and continues, and the sentinel
follows the per-event messages. -/
def workerMain (catalogOk controlOk cacheOk wfOpenOk : Bool)
    (perEvent : List (List Msg)) : List Msg :=
  if catalogOk then
    if controlOk then
      if cacheOk then
        if wfOpenOk then perEvent.flatten ++ [Msg.done]
        else [Msg.done]
      else []
    else []
  else []

/-- A whole worker rank's message stream: `workerMain` applied to the
messages produced by `correlate` on each assigned primary id. -/
def workerRun (cfg : Config) (wf : WfProvider)
    (catalogOk controlOk cacheOk wfOpenOk : Bool)
    (df0_event : List Event) (df0_phase : List Phase) (assigned : List Nat) :
    List Msg :=
  workerMain catalogOk controlOk cacheOk wfOpenOk
    (assigned.map (fun e => (correlate cfg wf df0_event df0_phase e).1))

/-- Writer-rank state: the `stop_count` and `idx` counters of `write_loop`,
the allocated length shared by the seven output datasets (all resized
together at source lines 447-449), and the logically written rows. -/
structure WriterState where
  stop_count : Nat
  idx : Nat
  cap : Nat
  rows : List CorrData
deriving DecidableEq

/-- State after `initialize_output` (source lines 424-431: every dataset is
created with shape `(0,)`) and the counter initialization at lines 434-435. -/
def initWriter : WriterState := ⟨0, 0, 0, []⟩

/-- One message handled by the body of `write_loop` (source lines 440-460):
`None` is ignored, `StopIteration` increments `stop_count`, and a data dict
grows every column by one block when `idx` is at a block boundary, writes the
row at `idx`, and increments `idx`. -/
def writeStep (st : WriterState) : Msg → WriterState
  | Msg.noop => st
  | Msg.done => { st with stop_count := st.stop_count + 1 }
  | Msg.result d =>
      { st with
          cap := if st.idx % OUTPUT_BLOCK_SIZE == 0 then st.cap + OUTPUT_BLOCK_SIZE
                 else st.cap,
          rows := st.rows ++ [d],
          idx := st.idx + 1 }

/-- `write_loop` (source lines 433-445) consuming a message sequence:
the `stop_count == SIZE-1` check runs before each receive, so the loop
returns as soon as `n` sentinels have been handled, leaving the rest of the
sequence unread; an exhausted sequence (`none`) models the blocking receive
that no further message will ever satisfy. -/
def write_loop (n : Nat) : WriterState → List Msg → Option (WriterState × List Msg)
  | st, [] => if st.stop_count = n then some (st, []) else none
  | st, m :: rest =>
      if st.stop_count = n then some (st, m :: rest)
      else write_loop n (writeStep st m) rest

/-- Number of `StopIteration` sentinels in a message sequence. -/
def countDone (msgs : List Msg) : Nat :=
  msgs.countP (fun m => m == Msg.done)

/-- The data payloads of the result messages of a sequence, in order. -/
def resultDatas (msgs : List Msg) : List CorrData :=
  msgs.filterMap (fun m =>
    match m with
    | Msg.result d => some d
    | _ => none)

/-- Number of result messages in a sequence. -/
def countResults (msgs : List Msg) : Nat := (resultDatas msgs).length

/-- The channel candidates passing the acceptance threshold of source line
385, in channel order (the contents of the parallel `ddiff`/`ccmax` lists
after an exception-free channel loop). -/
def acceptedCands (corr_min : ℚ) (chans : Chans) : List (ℚ × ℚ) :=
  chans.filterMap (fun c =>
    match c.2 with
    | ChanOutcome.value dd cc => if corr_min ≤ |cc| then some (dd, cc) else none
    | _ => none)

/-- No channel of the list raises an exception. -/
def chanErrFree (chans : Chans) : Prop :=
  ∀ c ∈ chans, c.2 ≠ ChanOutcome.err

/-- No channel of the arrival's retrieved streams raises an exception. -/
def arrivalErrFree (a : Arrival) : Prop :=
  ∀ chans, a.wf = some chans → chanErrFree chans

instance (chans : Chans) : Decidable (chanErrFree chans) :=
  inferInstanceAs (Decidable (∀ c ∈ chans, c.2 ≠ ChanOutcome.err))

instance (a : Arrival) : Decidable (arrivalErrFree a) :=
  match hwf : a.wf with
  | none => isTrue (fun _ hc => absurd (hwf ▸ hc) (by simp))
  | some cs =>
      match inferInstanceAs (Decidable (chanErrFree cs)) with
      | isTrue hp => isTrue (fun c hc => by
          rw [hwf] at hc
          rw [← Option.some_inj.mp hc]
          exact hp)
      | isFalse hp => isFalse (fun hall => hp (hall cs hwf))

/-- The capacity/row-count invariant of the writer rank: the logical index
matches the written rows, the allocated shape is a whole number of blocks at
least as large as the logical size, and undershoots the next block. -/
def writerInv (st : WriterState) : Prop :=
  st.idx = st.rows.length ∧ st.cap % OUTPUT_BLOCK_SIZE = 0 ∧
    st.idx ≤ st.cap ∧ st.cap < st.idx + OUTPUT_BLOCK_SIZE

/-- Concrete pick rows, channel outcomes, arrivals and payloads used by the
witness and counterexample theorems below. -/
def pick1 : Phase := ⟨1, "STA1", "HHZ", "P", "NET", 0⟩

def pick2 : Phase := ⟨2, "STA2", "HHZ", "S", "NET", 3⟩

def pick3 : Phase := ⟨1, "STA3", "HHZ", "P", "NET", 0⟩

def pick4 : Phase := ⟨1, "STA4", "HHN", "P", "NET", 0⟩

/-- Arrival whose second template channel raises during processing; a better
candidate sits on the never-reached third channel.  (Coefficient magnitudes
are integer-valued rationals so that concrete runs reduce in the kernel; the
selection logic only compares magnitudes, never their scale.) -/
def arrErr : Arrival :=
  ⟨pick1, some [("HHZ", ChanOutcome.value 1 2), ("HHE", ChanOutcome.err),
                ("HHN", ChanOutcome.value 2 5)]⟩

/-- Error-free arrival following `arrErr` in the same pair. -/
def arrOk : Arrival := ⟨pick2, some [("HHZ", ChanOutcome.value 3 4)]⟩

/-- Arrival whose waveform retrieval raises `KeyError`. -/
def arrMissing : Arrival := ⟨pick3, none⟩

/-- Arrival whose single (winning) waveform channel is named differently from
the `chan` column of the pick itself. -/
def arrOtherChan : Arrival := ⟨pick4, some [("EHZ", ChanOutcome.value 1 3)]⟩

/-- Concrete correlation payload for writer-rank witnesses. -/
def sampleData : CorrData := ⟨1, 2, "STA1", "P", "HHZ", 2, -3⟩

/-- Concrete two-event catalog for the neighbour-finder witness. -/
def eventsW : List Event := [⟨1, 0, 0, 0, 0⟩, ⟨2, 1, 0, 0, 5⟩]

/-- Concrete phase catalog for the selector witness: both events pick the
same (station, phase), plus one pick owned by the second event alone. -/
def phasesW : List Phase :=
  [⟨1, "STA1", "HHZ", "P", "NET", 1⟩, ⟨2, "STA1", "HHE", "P", "NET", 2⟩,
   ⟨2, "STA2", "HHZ", "S", "NET", 3⟩]

/-- The neighbour list `get_knn` computes on `eventsW` for primary id 1. -/
def knnResW : List Event := [⟨1, 0, 0, 0, 0⟩, ⟨2, 1, 0, 0, 5⟩]

/-- Error-free channel list with two accepted candidates and one rejected
one, for the best-of-channel witness. -/
def chansW : Chans :=
  [("HHZ", ChanOutcome.value 1 2), ("HHE", ChanOutcome.value 2 (-3)),
   ("HHN", ChanOutcome.value 3 1)]

/-- Message sequence with two sentinels for the aggregator witness. -/
def msgsW : List Msg :=
  [Msg.noop, Msg.done, Msg.result sampleData, Msg.done, Msg.noop]

theorem countDone_nil : countDone [] = 0 := rfl

theorem countDone_cons (m : Msg) (msgs : List Msg) :
    countDone (m :: msgs) = countDone msgs + (if m = Msg.done then 1 else 0) := by
  simp [countDone, List.countP_cons]

theorem countDone_append (l1 l2 : List Msg) :
    countDone (l1 ++ l2) = countDone l1 + countDone l2 := by
  simp [countDone, List.countP_append]

theorem resultDatas_cons (m : Msg) (msgs : List Msg) :
    resultDatas (m :: msgs)
      = (match m with | Msg.result d => [d] | _ => []) ++ resultDatas msgs := by
  cases m <;> simp [resultDatas]

theorem resultDatas_append (l1 l2 : List Msg) :
    resultDatas (l1 ++ l2) = resultDatas l1 ++ resultDatas l2 := by
  simp [resultDatas, List.filterMap_append]

theorem writeStep_stop_count (st : WriterState) (m : Msg) :
    (writeStep st m).stop_count
      = st.stop_count + (if m = Msg.done then 1 else 0) := by
  cases m <;> simp [writeStep]

theorem write_loop_at_target (n : Nat) (st : WriterState) (msgs : List Msg)
    (h : st.stop_count = n) : write_loop n st msgs = some (st, msgs) := by
  cases msgs <;> simp [write_loop, h]

theorem write_loop_reaches (n : Nat) :
    ∀ (msgs : List Msg) (st : WriterState), st.stop_count < n →
      n ≤ st.stop_count + countDone msgs →
      ∃ pre suf, msgs = pre ++ suf ∧
        write_loop n st msgs = some (pre.foldl writeStep st, suf) ∧
        st.stop_count + countDone pre = n ∧
        ∃ pre0, pre = pre0 ++ [Msg.done] ∧ st.stop_count + countDone pre0 = n - 1 := by
  intro msgs
  induction msgs with
  | nil =>
      intro st hlt hle
      rw [countDone_nil] at hle
      omega
  | cons m rest ih =>
      intro st hlt hle
      have hne : st.stop_count ≠ n := Nat.ne_of_lt hlt
      rw [countDone_cons] at hle
      by_cases hm : m = Msg.done
      · subst hm
        simp at hle
        by_cases htop : st.stop_count + 1 = n
        · refine ⟨[Msg.done], rest, by simp, ?_, ?_, [], by simp, ?_⟩
          · have : write_loop n st (Msg.done :: rest)
                = write_loop n (writeStep st Msg.done) rest := by
              simp [write_loop, hne]
            rw [this, write_loop_at_target]
            · simp
            · rw [writeStep_stop_count]; simpa using htop
          · simp [countDone_cons, countDone_nil]; omega
          · simp [countDone_nil]; omega
        · have hlt2 : (writeStep st Msg.done).stop_count < n := by
            rw [writeStep_stop_count]; simp; omega
          have hle2 : n ≤ (writeStep st Msg.done).stop_count + countDone rest := by
            rw [writeStep_stop_count]; simp; omega
          obtain ⟨pre, suf, hsplit, hrun, hcount, pre0, hpre0, hcount0⟩ :=
            ih (writeStep st Msg.done) hlt2 hle2
          rw [writeStep_stop_count] at hcount hcount0
          simp at hcount hcount0
          refine ⟨Msg.done :: pre, suf, by simp [hsplit], ?_, ?_,
            Msg.done :: pre0, by simp [hpre0], ?_⟩
          · have : write_loop n st (Msg.done :: rest)
                = write_loop n (writeStep st Msg.done) rest := by
              simp [write_loop, hne]
            rw [this, hrun]; simp
          · rw [countDone_cons]; simp; omega
          · rw [countDone_cons]; simp; omega
      · have hstep : (writeStep st m).stop_count = st.stop_count := by
          rw [writeStep_stop_count]; simp [hm]
        have hle2 : n ≤ (writeStep st m).stop_count + countDone rest := by
          rw [hstep]; simp [hm] at hle; omega
        obtain ⟨pre, suf, hsplit, hrun, hcount, pre0, hpre0, hcount0⟩ :=
          ih (writeStep st m) (by rw [hstep]; exact hlt) hle2
        rw [hstep] at hcount hcount0
        refine ⟨m :: pre, suf, by simp [hsplit], ?_, ?_, m :: pre0, by simp [hpre0], ?_⟩
        · have : write_loop n st (m :: rest)
              = write_loop n (writeStep st m) rest := by
            simp [write_loop, hne]
          rw [this, hrun]; simp
        · rw [countDone_cons]; simp [hm]; omega
        · rw [countDone_cons]; simp [hm]; omega

theorem write_loop_blocked (n : Nat) :
    ∀ (msgs : List Msg) (st : WriterState),
      st.stop_count + countDone msgs < n → write_loop n st msgs = none := by
  intro msgs
  induction msgs with
  | nil =>
      intro st h
      rw [countDone_nil] at h
      simp [write_loop]
      omega
  | cons m rest ih =>
      intro st h
      rw [countDone_cons] at h
      have hne : st.stop_count ≠ n := by omega
      have : write_loop n st (m :: rest) = write_loop n (writeStep st m) rest := by
        simp [write_loop, hne]
      rw [this]
      apply ih
      rw [writeStep_stop_count]
      omega

theorem write_loop_some_decomp (n : Nat) :
    ∀ (msgs : List Msg) (st st' : WriterState) (suf : List Msg),
      write_loop n st msgs = some (st', suf) →
      ∃ pre, msgs = pre ++ suf ∧ st' = pre.foldl writeStep st := by
  intro msgs
  induction msgs with
  | nil =>
      intro st st' suf h
      by_cases hn : st.stop_count = n
      · simp [write_loop, hn] at h
        exact ⟨[], by simp [h]⟩
      · simp [write_loop, hn] at h
  | cons m rest ih =>
      intro st st' suf h
      by_cases hn : st.stop_count = n
      · simp [write_loop, hn] at h
        exact ⟨[], by simp [h.1, h.2]⟩
      · simp [write_loop, hn] at h
        obtain ⟨pre, hsplit, hfold⟩ := ih (writeStep st m) st' suf h
        exact ⟨m :: pre, by simp [hsplit], by simp [hfold]⟩

theorem foldl_writeStep_idx :
    ∀ (msgs : List Msg) (st : WriterState),
      (msgs.foldl writeStep st).idx = st.idx + countResults msgs := by
  intro msgs
  induction msgs with
  | nil => intro st; simp [countResults, resultDatas]
  | cons m rest ih =>
      intro st
      have : countResults (m :: rest)
          = (match m with | Msg.result _ => 1 | _ => 0) + countResults rest := by
        simp [countResults, resultDatas_cons]
        cases m <;> simp
      rw [List.foldl_cons, ih, this]
      cases m with
      | result d => simp [writeStep]; omega
      | noop => simp [writeStep]
      | done => simp [writeStep]

theorem foldl_writeStep_rows :
    ∀ (msgs : List Msg) (st : WriterState),
      (msgs.foldl writeStep st).rows = st.rows ++ resultDatas msgs := by
  intro msgs
  induction msgs with
  | nil => intro st; simp [resultDatas]
  | cons m rest ih =>
      intro st
      rw [List.foldl_cons, ih, resultDatas_cons]
      cases m <;> simp [writeStep]

theorem writerInv_init : writerInv initWriter := by
  refine ⟨rfl, rfl, le_refl _, ?_⟩
  simp [initWriter, OUTPUT_BLOCK_SIZE]

theorem writerInv_step (st : WriterState) (m : Msg) (h : writerInv st) :
    writerInv (writeStep st m) := by
  obtain ⟨hlen, hmod, hle, hlt⟩ := h
  have hB : 0 < OUTPUT_BLOCK_SIZE := by simp [OUTPUT_BLOCK_SIZE]
  cases m with
  | noop => exact ⟨hlen, hmod, hle, hlt⟩
  | done => exact ⟨hlen, hmod, hle, hlt⟩
  | result d =>
      by_cases hidx : st.idx % OUTPUT_BLOCK_SIZE = 0
      · have hcapidx : st.cap = st.idx := by
          have hdvd : OUTPUT_BLOCK_SIZE ∣ st.cap - st.idx :=
            Nat.dvd_sub' (Nat.dvd_of_mod_eq_zero hmod) (Nat.dvd_of_mod_eq_zero hidx)
          have hsub : st.cap - st.idx < OUTPUT_BLOCK_SIZE := by omega
          have := Nat.eq_zero_of_dvd_of_lt hdvd
          omega
        refine ⟨?_, ?_, ?_, ?_⟩ <;> simp [writeStep, hidx]
        · omega
        · omega
        · omega
        · omega
      · have hne : st.idx ≠ st.cap := by
          intro hcontra
          rw [hcontra] at hidx
          exact hidx hmod
        refine ⟨?_, ?_, ?_, ?_⟩ <;> simp [writeStep, hidx]
        · omega
        · exact hmod
        · omega
        · omega

theorem writerInv_foldl (msgs : List Msg) : writerInv (msgs.foldl writeStep initWriter) := by
  have : ∀ (l : List Msg) (st : WriterState), writerInv st → writerInv (l.foldl writeStep st) := by
    intro l
    induction l with
    | nil => intro st h; exact h
    | cons m rest ih => intro st h; exact ih (writeStep st m) (writerInv_step st m h)
  exact this msgs initWriter writerInv_init

theorem writerInv_cap_min (st : WriterState) (h : writerInv st) :
    ∀ c, c % OUTPUT_BLOCK_SIZE = 0 → st.idx ≤ c → st.cap ≤ c := by
  obtain ⟨_, hmod, _, hlt⟩ := h
  intro c hc hle
  by_contra hgt
  push_neg at hgt
  have hdvd : OUTPUT_BLOCK_SIZE ∣ st.cap - c :=
    Nat.dvd_sub' (Nat.dvd_of_mod_eq_zero hmod) (Nat.dvd_of_mod_eq_zero hc)
  have hpos : 0 < st.cap - c := by omega
  have := Nat.le_of_dvd hpos hdvd
  omega

theorem runChannels_errFree (cm : ℚ) :
    ∀ chans, chanErrFree chans → runChannels cm chans = (acceptedCands cm chans, false) := by
  intro chans
  induction chans with
  | nil => intro _; rfl
  | cons c rest ih =>
      intro h
      have hc : c.2 ≠ ChanOutcome.err := h c (by simp)
      have hrest : chanErrFree rest := fun x hx => h x (List.mem_cons_of_mem _ hx)
      obtain ⟨nm, oc⟩ := c
      cases oc with
      | missing =>
          simpa [runChannels, acceptedCands, List.filterMap_cons] using ih hrest
      | err => exact absurd rfl hc
      | value dd cc =>
          by_cases hacc : cm ≤ |cc| <;>
            simp [runChannels, hacc, ih hrest, acceptedCands, List.filterMap_cons]

theorem runChannels_mem (cm : ℚ) :
    ∀ chans c, c ∈ (runChannels cm chans).1 → cm ≤ |c.2| := by
  intro chans
  induction chans with
  | nil => intro c h; simp [runChannels] at h
  | cons ch rest ih =>
      intro c h
      obtain ⟨nm, oc⟩ := ch
      cases oc with
      | missing => exact ih c (by simpa [runChannels] using h)
      | err => simp [runChannels] at h
      | value dd cc =>
          by_cases hacc : cm ≤ |cc|
          · simp only [runChannels, hacc, if_true] at h
            rcases List.mem_cons.mp h with hp | hp
            · subst hp; exact hacc
            · exact ih c hp
          · exact ih c (by simpa [runChannels, hacc] using h)

theorem runChannels_abort (cm : ℚ) :
    ∀ (preC : Chans), chanErrFree preC → ∀ (nm : String) (postC : Chans),
      runChannels cm (preC ++ (nm, ChanOutcome.err) :: postC)
        = ((runChannels cm preC).1, true) := by
  intro preC
  induction preC with
  | nil => intro _ nm postC; simp [runChannels]
  | cons c rest ih =>
      intro h nm postC
      have hc : c.2 ≠ ChanOutcome.err := h c (by simp)
      have hrest : chanErrFree rest := fun x hx => h x (List.mem_cons_of_mem _ hx)
      obtain ⟨nm0, oc⟩ := c
      cases oc with
      | missing => simpa [runChannels] using ih hrest nm postC
      | err => exact absurd rfl hc
      | value dd cc =>
          by_cases hacc : cm ≤ |cc| <;>
            simp [runChannels, hacc, ih hrest nm postC, List.append_eq]

theorem argmaxAbs_eq_none : ∀ (l : List (ℚ × ℚ)), argmaxAbs l = none → l = [] := by
  intro l h
  cases l with
  | nil => rfl
  | cons p rest =>
      cases hrest : argmaxAbs rest with
      | none => simp [argmaxAbs, hrest] at h
      | some q =>
          rw [show argmaxAbs (p :: rest)
              = if |p.2| < |q.2| then some q else some p by simp [argmaxAbs, hrest]] at h
          by_cases hpq : |p.2| < |q.2| <;> simp [hpq] at h

theorem argmaxAbs_mem : ∀ (l : List (ℚ × ℚ)) (c : ℚ × ℚ), argmaxAbs l = some c → c ∈ l := by
  intro l
  induction l with
  | nil => intro c h; simp [argmaxAbs] at h
  | cons p rest ih =>
      intro c h
      cases hrest : argmaxAbs rest with
      | none =>
          rw [show argmaxAbs (p :: rest) = some p by simp [argmaxAbs, hrest]] at h
          simp at h
          simp [h]
      | some q =>
          rw [show argmaxAbs (p :: rest)
              = if |p.2| < |q.2| then some q else some p by simp [argmaxAbs, hrest]] at h
          by_cases hpq : |p.2| < |q.2|
          · simp [hpq] at h
            exact List.mem_cons_of_mem _ (ih c (h ▸ hrest))
          · simp [hpq] at h
            simp [h]

theorem argmaxAbs_max :
    ∀ (l : List (ℚ × ℚ)) (c : ℚ × ℚ), argmaxAbs l = some c →
      ∀ x ∈ l, |x.2| ≤ |c.2| := by
  intro l
  induction l with
  | nil => intro c h; simp [argmaxAbs] at h
  | cons p rest ih =>
      intro c h x hx
      cases hrest : argmaxAbs rest with
      | none =>
          have hnil : rest = [] := argmaxAbs_eq_none rest hrest
          rw [show argmaxAbs (p :: rest) = some p by simp [argmaxAbs, hrest]] at h
          simp at h
          subst hnil
          simp at hx
          subst hx
          simp [h]
      | some q =>
          rw [show argmaxAbs (p :: rest)
              = if |p.2| < |q.2| then some q else some p by simp [argmaxAbs, hrest]] at h
          rcases List.mem_cons.mp hx with hxp | hxr
          · subst hxp
            by_cases hpq : |x.2| < |q.2|
            · simp [hpq] at h
              subst h; exact le_of_lt hpq
            · simp [hpq] at h
              subst h; exact le_refl _
          · have hq := ih q hrest x hxr
            by_cases hpq : |p.2| < |q.2|
            · simp [hpq] at h
              subst h; exact hq
            · simp [hpq] at h
              subst h; exact le_trans hq (not_lt.mp hpq)

theorem processArrival_none_iff (cm : ℚ) (e0 eB : Nat) (a : Arrival) :
    (processArrival cm e0 eB a).1 = none ↔ a.wf = none := by
  cases hwf : a.wf with
  | none => simp [processArrival, hwf]
  | some chans =>
      simp only [processArrival, hwf]
      cases hfin : finalizeArrival e0 eB a.pick (runChannels cm chans).1 <;> simp [hfin]

theorem processArrival_result (cm : ℚ) (e0 eB : Nat) (a : Arrival) (d : CorrData) :
    (processArrival cm e0 eB a).1 = some (Msg.result d) →
    ∃ chans, a.wf = some chans ∧
      d.evidA = e0 ∧ d.evidB = eB ∧ d.sta = a.pick.sta ∧ d.phase = a.pick.phase ∧
      d.chan = a.pick.chan ∧ (d.ddiff, d.ccmax) ∈ (runChannels cm chans).1 := by
  intro h
  cases hwf : a.wf with
  | none => simp [processArrival, hwf] at h
  | some chans =>
      refine ⟨chans, rfl, ?_⟩
      simp only [processArrival, hwf] at h
      cases hfin : finalizeArrival e0 eB a.pick (runChannels cm chans).1 with
      | none => simp [hfin] at h
      | some d2 =>
          simp [hfin] at h
          subst h
          simp only [finalizeArrival] at hfin
          cases hmax : argmaxAbs (runChannels cm chans).1 with
          | none => simp [hmax] at hfin
          | some c =>
              simp [hmax] at hfin
              subst hfin
              simpa using argmaxAbs_mem _ c hmax

theorem processArrival_errFree (cm : ℚ) (e0 eB : Nat) (a : Arrival)
    (h : arrivalErrFree a) : (processArrival cm e0 eB a).2 = false := by
  cases hwf : a.wf with
  | none => simp [processArrival, hwf]
  | some chans =>
      have := runChannels_errFree cm chans (h chans hwf)
      simp only [processArrival, hwf, this]
      cases hfin : finalizeArrival e0 eB a.pick (acceptedCands cm chans) <;> simp [hfin]

theorem correlatePair_errFree (cm : ℚ) (e0 eB : Nat) :
    ∀ (l : List Arrival), (∀ a ∈ l, arrivalErrFree a) →
      correlatePair cm e0 eB l
        = (l.filterMap (fun a => (processArrival cm e0 eB a).1), false) := by
  intro l
  induction l with
  | nil => intro _; rfl
  | cons a rest ih =>
      intro h
      have ha : arrivalErrFree a := h a (by simp)
      have hrest : ∀ x ∈ rest, arrivalErrFree x := fun x hx => h x (List.mem_cons_of_mem _ hx)
      have hp := processArrival_errFree cm e0 eB a ha
      simp only [correlatePair, hp, if_false, ih hrest, List.filterMap_cons, Bool.false_eq_true]
      cases hm : (processArrival cm e0 eB a).1 <;> simp [hm]

theorem correlatePair_result_from (cm : ℚ) (e0 eB : Nat) :
    ∀ (l : List Arrival) (d : CorrData),
      d ∈ resultDatas (correlatePair cm e0 eB l).1 →
      ∃ a ∈ l, (processArrival cm e0 eB a).1 = some (Msg.result d) := by
  intro l
  induction l with
  | nil => intro d h; simp [correlatePair, resultDatas] at h
  | cons a rest ih =>
      intro d h
      have hhead : ∀ m, (processArrival cm e0 eB a).1 = some m →
          d ∈ resultDatas [m] → (processArrival cm e0 eB a).1 = some (Msg.result d) := by
        intro m hm hd
        cases m with
        | result d2 => simp [resultDatas] at hd; rw [hm, hd]
        | noop => simp [resultDatas] at hd
        | done => simp [resultDatas] at hd
      cases he : (processArrival cm e0 eB a).2 with
      | true =>
          simp only [correlatePair, he, if_true] at h
          cases hm : (processArrival cm e0 eB a).1 with
          | none => rw [hm] at h; simp [resultDatas] at h
          | some m =>
              rw [hm] at h
              simp only [Option.toList_some] at h
              exact ⟨a, by simp, hhead m hm h⟩
      | false =>
          simp only [correlatePair, he, Bool.false_eq_true, if_false,
            resultDatas_append, List.mem_append] at h
          rcases h with h0 | h1
          · cases hm : (processArrival cm e0 eB a).1 with
            | none => rw [hm] at h0; simp [resultDatas] at h0
            | some m =>
                rw [hm] at h0
                simp only [Option.toList_some] at h0
                exact ⟨a, by simp, hhead m hm h0⟩
          · obtain ⟨b, hb, hbd⟩ := ih d h1
            exact ⟨b, List.mem_cons_of_mem _ hb, hbd⟩

theorem correlatePair_keys (cm : ℚ) (e0 eB : Nat) :
    ∀ (l : List Arrival),
      l.Pairwise (fun a b => ¬(a.pick.sta = b.pick.sta ∧ a.pick.phase = b.pick.phase)) →
      (resultDatas (correlatePair cm e0 eB l).1).Pairwise
        (fun d1 d2 => ¬(d1.sta = d2.sta ∧ d1.phase = d2.phase)) := by
  intro l
  induction l with
  | nil => intro _; simp [correlatePair, resultDatas]
  | cons a rest ih =>
      intro hp
      obtain ⟨hhd, htl⟩ := List.pairwise_cons.mp hp
      have hcross : ∀ d1, (processArrival cm e0 eB a).1 = some (Msg.result d1) →
          ∀ d2 ∈ resultDatas (correlatePair cm e0 eB rest).1,
            ¬(d1.sta = d2.sta ∧ d1.phase = d2.phase) := by
        intro d1 h1 d2 h2
        obtain ⟨_, _, _, _, hsta1, hph1, _, _⟩ := processArrival_result cm e0 eB a d1 h1
        obtain ⟨b, hb, hbd⟩ := correlatePair_result_from cm e0 eB rest d2 h2
        obtain ⟨_, _, _, _, hsta2, hph2, _, _⟩ := processArrival_result cm e0 eB b d2 hbd
        intro ⟨hs, hph⟩
        exact hhd b hb ⟨by rw [← hsta1, ← hsta2, hs], by rw [← hph1, ← hph2, hph]⟩
      cases he : (processArrival cm e0 eB a).2 with
      | true =>
          simp only [correlatePair, he, if_true]
          cases hm : (processArrival cm e0 eB a).1 with
          | none => simp [resultDatas]
          | some m => cases m <;> simp [resultDatas]
      | false =>
          simp only [correlatePair, he, Bool.false_eq_true, if_false]
          rw [resultDatas_append, List.pairwise_append]
          refine ⟨?_, ih htl, ?_⟩
          · cases hm : (processArrival cm e0 eB a).1 with
            | none => simp [resultDatas]
            | some m => cases m <;> simp [resultDatas]
          · intro d1 h1 d2 h2
            cases hm : (processArrival cm e0 eB a).1 with
            | none => rw [hm] at h1; simp [resultDatas] at h1
            | some m =>
                rw [hm] at h1
                cases m with
                | result dr =>
                    simp [resultDatas] at h1
                    subst h1
                    exact hcross d1 hm d2 h2
                | noop => simp [resultDatas] at h1
                | done => simp [resultDatas] at h1

theorem dropDupSeen_subset :
    ∀ (l : List Phase) (seen : List (String × String)) (p : Phase),
      p ∈ dropDupSeen l seen → p ∈ l := by
  intro l
  induction l with
  | nil => intro seen p h; simp [dropDupSeen] at h
  | cons a rest ih =>
      intro seen p h
      by_cases hk : (a.sta, a.phase) ∈ seen
      · simp only [dropDupSeen, if_pos hk] at h
        exact List.mem_cons_of_mem _ (ih seen p h)
      · simp only [dropDupSeen, if_neg hk] at h
        rcases List.mem_cons.mp h with hp | hp
        · simp [hp]
        · exact List.mem_cons_of_mem _ (ih _ p hp)

theorem dropDupSeen_not_seen :
    ∀ (l : List Phase) (seen : List (String × String)) (p : Phase),
      p ∈ dropDupSeen l seen → (p.sta, p.phase) ∉ seen := by
  intro l
  induction l with
  | nil => intro seen p h; simp [dropDupSeen] at h
  | cons a rest ih =>
      intro seen p h
      by_cases hk : (a.sta, a.phase) ∈ seen
      · simp only [dropDupSeen, if_pos hk] at h
        exact ih seen p h
      · simp only [dropDupSeen, if_neg hk] at h
        rcases List.mem_cons.mp h with hp | hp
        · subst hp; exact hk
        · have := ih _ p hp
          intro hcontra
          exact this (List.mem_cons_of_mem _ hcontra)

theorem dropDupSeen_pairwise :
    ∀ (l : List Phase) (seen : List (String × String)),
      (dropDupSeen l seen).Pairwise
        (fun p q => ¬(p.sta = q.sta ∧ p.phase = q.phase)) := by
  intro l
  induction l with
  | nil => intro seen; simp [dropDupSeen]
  | cons a rest ih =>
      intro seen
      by_cases hk : (a.sta, a.phase) ∈ seen
      · simpa [dropDupSeen, if_pos hk] using ih seen
      · simp only [dropDupSeen, if_neg hk]
        refine List.pairwise_cons.mpr ⟨?_, ih _⟩
        intro q hq ⟨hs, hph⟩
        have := dropDupSeen_not_seen rest _ q hq
        exact this (by simp [← hs, ← hph])

theorem dropDupSeen_covers :
    ∀ (l : List Phase) (seen : List (String × String)) (p : Phase), p ∈ l →
      (p.sta, p.phase) ∈ seen ∨
        ∃ q ∈ dropDupSeen l seen, q.sta = p.sta ∧ q.phase = p.phase := by
  intro l
  induction l with
  | nil => intro seen p h; simp at h
  | cons a rest ih =>
      intro seen p h
      by_cases hk : (a.sta, a.phase) ∈ seen
      · simp only [dropDupSeen, if_pos hk]
        rcases List.mem_cons.mp h with hp | hp
        · subst hp; exact Or.inl hk
        · exact ih seen p hp
      · simp only [dropDupSeen, if_neg hk]
        rcases List.mem_cons.mp h with hp | hp
        · subst hp
          exact Or.inr ⟨p, by simp⟩
        · rcases ih ((a.sta, a.phase) :: seen) p hp with hseen | ⟨q, hq, hqk⟩
          · rcases List.mem_cons.mp hseen with heq | hseen2
            · rw [Prod.ext_iff] at heq
              exact Or.inr ⟨a, by simp, heq.1.symm, heq.2.symm⟩
            · exact Or.inl hseen2
          · exact Or.inr ⟨q, List.mem_cons_of_mem _ hq, hqk⟩

theorem mem_get_phases (evids : List Nat) (df : List Phase) (p : Phase) :
    p ∈ get_phases evids df ↔ p ∈ df ∧ p.evid ∈ evids := by
  simp [get_phases, List.mem_insertionSort, List.mem_filter]

theorem distSq_self (e : Event) : distSq e e = 0 := by
  simp [distSq]

theorem distSq_nonneg (e0 e : Event) : 0 ≤ distSq e0 e := by
  unfold distSq
  positivity

theorem knnLE_self_min (e0 : Event) (x : Event) : knnLE e0 e0 x := by
  unfold knnLE
  rw [distSq_self]
  exact distSq_nonneg e0 x

theorem filter_ge_of_find? :
    ∀ (df : List Event) (evid : Nat) (e0 : Event),
      df.Pairwise (fun a b => a.id < b.id) →
      df.find? (fun e => e.id == evid) = some e0 →
      ∃ rest, df.filter (fun e => decide (evid ≤ e.id)) = e0 :: rest := by
  intro df
  induction df with
  | nil => intro evid e0 _ hfind; simp at hfind
  | cons a tl ih =>
      intro evid e0 hp hfind
      obtain ⟨hhd, htl⟩ := List.pairwise_cons.mp hp
      by_cases ha : (a.id == evid) = true
      · have haid : a.id = evid := by simpa using ha
        rw [@List.find?_cons_of_pos Event (fun e => e.id == evid) a tl ha] at hfind
        have he0 : e0 = a := by simpa using hfind.symm
        subst he0
        refine ⟨tl.filter (fun e => decide (evid ≤ e.id)), ?_⟩
        rw [List.filter_cons_of_pos]
        simp [haid]
      · rw [@List.find?_cons_of_neg Event (fun e => e.id == evid) a tl ha] at hfind
        have he0tl : e0 ∈ tl := List.mem_of_find?_eq_some hfind
        have he0id : e0.id = evid := by
          have := List.find?_some hfind
          simpa using this
        have halt : a.id < evid := he0id ▸ hhd e0 he0tl
        obtain ⟨rest, hrest⟩ := ih evid e0 htl hfind
        refine ⟨rest, ?_⟩
        rw [List.filter_cons_of_neg, hrest]
        simp
        omega

theorem insertionSort_cons_min {r : Event → Event → Prop} [DecidableRel r]
    (a : Event) (l : List Event) (h : ∀ x, r a x) :
    List.insertionSort r (a :: l) = a :: List.insertionSort r l := by
  rw [List.insertionSort]
  cases hs : List.insertionSort r l with
  | nil => simp [List.orderedInsert]
  | cons b tl => simp [List.orderedInsert, h b]

theorem correlatePair_abs (cm : ℚ) (e0 eB : Nat) (l : List Arrival) (d : CorrData)
    (h : d ∈ resultDatas (correlatePair cm e0 eB l).1) : cm ≤ |d.ccmax| := by
  obtain ⟨a, _, hpa⟩ := correlatePair_result_from cm e0 eB l d h
  obtain ⟨chans, _, _, _, _, _, _, hmem⟩ := processArrival_result cm e0 eB a d hpa
  exact runChannels_mem cm chans (d.ddiff, d.ccmax) hmem

theorem correlatePairs_abs (cfg : Config) (wf : WfProvider) (e0 : Nat)
    (dfP : List Phase) :
    ∀ (pairs : List Nat) (d : CorrData),
      d ∈ resultDatas (correlatePairs cfg wf e0 dfP pairs).1 →
      cfg.corr_min ≤ |d.ccmax| := by
  intro pairs
  induction pairs with
  | nil => intro d h; simp [correlatePairs, resultDatas] at h
  | cons eB rest ih =>
      intro d h
      cases he : (correlatePair cfg.corr_min e0 eB (selectArrivals wf e0 eB dfP)).2 with
      | true =>
          simp only [correlatePairs, he, if_true] at h
          exact correlatePair_abs _ _ _ _ _ h
      | false =>
          simp only [correlatePairs, he, Bool.false_eq_true, if_false,
            resultDatas_append, List.mem_append] at h
          rcases h with h | h
          · exact correlatePair_abs _ _ _ _ _ h
          · exact ih d h

theorem correlate_abs (cfg : Config) (wf : WfProvider) (dfE : List Event)
    (dfP : List Phase) (evid : Nat) (d : CorrData)
    (h : d ∈ resultDatas (correlate cfg wf dfE dfP evid).1) :
    cfg.corr_min ≤ |d.ccmax| := by
  cases hknn : get_knn evid dfE cfg.knn with
  | none => rw [correlate, hknn] at h; simp [resultDatas] at h
  | some dfev =>
      cases dfev with
      | nil => rw [correlate, hknn] at h; simp [resultDatas] at h
      | cons event0 rest =>
          rw [correlate, hknn] at h
          exact correlatePairs_abs _ _ _ _ _ d h

theorem resultDatas_flatten :
    ∀ (ls : List (List Msg)) (d : CorrData), d ∈ resultDatas ls.flatten →
      ∃ l ∈ ls, d ∈ resultDatas l := by
  intro ls
  induction ls with
  | nil => intro d h; simp [resultDatas] at h
  | cons l rest ih =>
      intro d h
      rw [List.flatten_cons, resultDatas_append] at h
      rcases List.mem_append.mp h with h | h
      · exact ⟨l, by simp, h⟩
      · obtain ⟨l2, hl2, hd⟩ := ih d h
        exact ⟨l2, List.mem_cons_of_mem _ hl2, hd⟩

theorem workerRun_abs (cfg : Config) (wf : WfProvider)
    (catalogOk controlOk cacheOk wfOpenOk : Bool)
    (dfE : List Event) (dfP : List Phase) (assigned : List Nat) (d : CorrData)
    (h : d ∈ resultDatas
      (workerRun cfg wf catalogOk controlOk cacheOk wfOpenOk dfE dfP assigned)) :
    cfg.corr_min ≤ |d.ccmax| := by
  cases catalogOk with
  | false => simp [workerRun, workerMain, resultDatas] at h
  | true =>
  cases controlOk with
  | false => simp [workerRun, workerMain, resultDatas] at h
  | true =>
  cases cacheOk with
  | false => simp [workerRun, workerMain, resultDatas] at h
  | true =>
  cases wfOpenOk with
  | false => simp [workerRun, workerMain, resultDatas] at h
  | true =>
      rw [workerRun, workerMain] at h
      simp only [if_true, resultDatas_append] at h
      rcases List.mem_append.mp h with h | h
      · obtain ⟨l, hl, hd⟩ := resultDatas_flatten _ d h
        obtain ⟨e, _, hle⟩ := List.mem_map.mp hl
        exact correlate_abs cfg wf dfE dfP e d (hle ▸ hd)
      · simp [resultDatas] at h

theorem processArrival_msg_not_done (cm : ℚ) (e0 eB : Nat) (a : Arrival) (m : Msg)
    (h : (processArrival cm e0 eB a).1 = some m) : m ≠ Msg.done := by
  cases hwf : a.wf with
  | none => simp [processArrival, hwf] at h
  | some chans =>
      simp only [processArrival, hwf] at h
      cases hfin : finalizeArrival e0 eB a.pick (runChannels cm chans).1 with
      | none => simp [hfin] at h; simp [← h]
      | some d => simp [hfin] at h; simp [← h]

theorem countDone_toList (o : Option Msg) (h : ∀ m, o = some m → m ≠ Msg.done) :
    countDone o.toList = 0 := by
  cases o with
  | none => rfl
  | some m =>
      have := h m rfl
      simp [countDone, List.countP_cons, this]

theorem countDone_correlatePair (cm : ℚ) (e0 eB : Nat) :
    ∀ (l : List Arrival), countDone (correlatePair cm e0 eB l).1 = 0 := by
  intro l
  induction l with
  | nil => rfl
  | cons a rest ih =>
      have h0 : countDone (processArrival cm e0 eB a).1.toList = 0 :=
        countDone_toList _ (fun m hm => processArrival_msg_not_done cm e0 eB a m hm)
      cases he : (processArrival cm e0 eB a).2 with
      | true => simp only [correlatePair, he, if_true]; exact h0
      | false =>
          simp only [correlatePair, he, Bool.false_eq_true, if_false, countDone_append,
            h0, ih]

theorem countDone_correlatePairs (cfg : Config) (wf : WfProvider) (e0 : Nat)
    (dfP : List Phase) :
    ∀ (pairs : List Nat), countDone (correlatePairs cfg wf e0 dfP pairs).1 = 0 := by
  intro pairs
  induction pairs with
  | nil => rfl
  | cons eB rest ih =>
      cases he : (correlatePair cfg.corr_min e0 eB (selectArrivals wf e0 eB dfP)).2 with
      | true =>
          simp only [correlatePairs, he, if_true]
          exact countDone_correlatePair _ _ _ _
      | false =>
          simp only [correlatePairs, he, Bool.false_eq_true, if_false, countDone_append,
            countDone_correlatePair, ih]

theorem countDone_correlate (cfg : Config) (wf : WfProvider) (dfE : List Event)
    (dfP : List Phase) (evid : Nat) :
    countDone (correlate cfg wf dfE dfP evid).1 = 0 := by
  cases hknn : get_knn evid dfE cfg.knn with
  | none => rw [correlate, hknn]; rfl
  | some dfev =>
      cases dfev with
      | nil => rw [correlate, hknn]; rfl
      | cons event0 rest =>
          rw [correlate, hknn]
          exact countDone_correlatePairs _ _ _ _ _

theorem countDone_flatten_zero :
    ∀ (ls : List (List Msg)), (∀ l ∈ ls, countDone l = 0) → countDone ls.flatten = 0 := by
  intro ls
  induction ls with
  | nil => intro _; rfl
  | cons l rest ih =>
      intro h
      rw [List.flatten_cons, countDone_append, h l (by simp),
        ih (fun x hx => h x (List.mem_cons_of_mem _ hx))]

/-- C1: for every event pair and selected arrival processed without error,
among the channel candidates that passed the acceptance threshold the
correlator emits exactly the one whose coefficient has maximum absolute
value; if no channel candidate was accepted, only a no-op is sent and no
CorrelationResult is emitted.  At the pair level the emitted results carry
pairwise-distinct (station, phase) keys, so at most one result exists per
(pair, station, phase). -/
theorem best_channel_selection (cm : ℚ) (e0 eB : Nat) :
    (∀ (pick : Phase) (chans : Chans), chanErrFree chans →
      (acceptedCands cm chans = [] →
        (processArrival cm e0 eB ⟨pick, some chans⟩).1 = some Msg.noop)
      ∧ (acceptedCands cm chans ≠ [] →
        ∃ d, (processArrival cm e0 eB ⟨pick, some chans⟩).1 = some (Msg.result d)
          ∧ (d.ddiff, d.ccmax) ∈ acceptedCands cm chans
          ∧ ∀ c ∈ acceptedCands cm chans, |c.2| ≤ |d.ccmax|))
    ∧ ∀ (wfp : WfProvider) (df : List Phase),
        (resultDatas (correlatePair cm e0 eB (selectArrivals wfp e0 eB df)).1).Pairwise
          (fun d1 d2 => ¬(d1.sta = d2.sta ∧ d1.phase = d2.phase)) := by
  constructor
  · intro pick chans hfree
    have hrun := runChannels_errFree cm chans hfree
    constructor
    · intro hemp
      simp [processArrival, hrun, hemp, finalizeArrival, argmaxAbs]
    · intro hne
      obtain ⟨c, hc⟩ : ∃ c, argmaxAbs (acceptedCands cm chans) = some c := by
        cases hm : argmaxAbs (acceptedCands cm chans) with
        | none => exact absurd (argmaxAbs_eq_none _ hm) hne
        | some c => exact ⟨c, rfl⟩
      refine ⟨⟨e0, eB, pick.sta, pick.phase, pick.chan, c.1, c.2⟩, ?_, ?_, ?_⟩
      · simp [processArrival, hrun, finalizeArrival, hc]
      · simpa using argmaxAbs_mem _ c hc
      · intro x hx
        simpa using argmaxAbs_max _ c hc x hx
  · intro wfp df
    apply correlatePair_keys
    rw [selectArrivals, List.pairwise_map]
    exact dropDupSeen_pairwise (get_phases [e0, eB] df) []

theorem best_channel_selection_witness :
    ∃ d, (processArrival 2 1 2 ⟨pick1, some chansW⟩).1 = some (Msg.result d)
      ∧ (d.ddiff, d.ccmax) ∈ acceptedCands 2 chansW
      ∧ ∀ c ∈ acceptedCands 2 chansW, |c.2| ≤ |d.ccmax| :=
  ((best_channel_selection 2 1 2).1 pick1 chansW (by decide)).2 (by decide)

/-- C2: every CorrelationResult a worker sends has a coefficient of absolute
value at least `corr_min`, and the rows the writer stores all come from the
result messages it received, so no row below the threshold is ever written
to the output table. -/
theorem corr_min_threshold (cfg : Config) :
    (∀ (wfp : WfProvider) (catalogOk controlOk cacheOk wfOpenOk : Bool)
        (dfE : List Event) (dfP : List Phase) (assigned : List Nat) (d : CorrData),
        d ∈ resultDatas
          (workerRun cfg wfp catalogOk controlOk cacheOk wfOpenOk dfE dfP assigned) →
        cfg.corr_min ≤ |d.ccmax|)
    ∧ ∀ (msgs : List Msg) (n : Nat) (st : WriterState) (suf : List Msg),
        (∀ d ∈ resultDatas msgs, cfg.corr_min ≤ |d.ccmax|) →
        write_loop n initWriter msgs = some (st, suf) →
        ∀ d ∈ st.rows, cfg.corr_min ≤ |d.ccmax| := by
  constructor
  · intro wfp catalogOk controlOk cacheOk wfOpenOk dfE dfP assigned d h
    exact workerRun_abs cfg wfp catalogOk controlOk cacheOk wfOpenOk dfE dfP assigned d h
  · intro msgs n st suf hall hrun d hd
    obtain ⟨pre, hsplit, hfold⟩ := write_loop_some_decomp n msgs initWriter st suf hrun
    rw [hfold, foldl_writeStep_rows] at hd
    simp [initWriter] at hd
    apply hall
    rw [hsplit, resultDatas_append]
    exact List.mem_append_left _ hd

theorem corr_min_threshold_witness : (2 : ℚ) ≤ |sampleData.ccmax| :=
  (corr_min_threshold ⟨2, 5⟩).2 [Msg.result sampleData, Msg.done] 1
    ⟨1, 1, 1000, [sampleData]⟩ [] (by decide) (by decide) sampleData (by decide)

/-- C3: for every primary event id present in the (id-sorted) catalog and
every neighbour count, `get_knn` returns at most K+1 events, every returned
id is at least the primary id, the first element is the primary event itself
at distance 0, and the computed distances are non-decreasing along the
sequence. -/
theorem knn_shape (df : List Event) (evid k : Nat) (res : List Event)
    (hsorted : df.Pairwise (fun a b => a.id < b.id))
    (hres : get_knn evid df k = some res) :
    res.length ≤ k + 1
    ∧ (∀ e ∈ res, evid ≤ e.id)
    ∧ ∃ e0, df.find? (fun e => e.id == evid) = some e0
        ∧ res.head? = some e0
        ∧ e0.id = evid
        ∧ Real.sqrt ((distSq e0 e0 : ℚ) : ℝ) = 0
        ∧ res.Chain' (fun a b =>
            Real.sqrt ((distSq e0 a : ℚ) : ℝ) ≤ Real.sqrt ((distSq e0 b : ℚ) : ℝ)) := by
  cases hfind : df.find? (fun e => e.id == evid) with
  | none =>
      rw [get_knn, hfind] at hres
      exact absurd hres (by simp)
  | some e0 =>
      rw [get_knn, hfind] at hres
      have hres2 : res
          = (List.insertionSort (knnLE e0)
              (df.filter (fun e => decide (evid ≤ e.id)))).take (k + 1) := by
        simpa using hres.symm
      have he0id : e0.id = evid := by simpa using List.find?_some hfind
      obtain ⟨tl, hfilter⟩ := filter_ge_of_find? df evid e0 hsorted hfind
      have hpair : (List.insertionSort (knnLE e0)
          (df.filter (fun e => decide (evid ≤ e.id)))).Pairwise (knnLE e0) :=
        List.sorted_insertionSort (knnLE e0) _
      refine ⟨?_, ?_, e0, rfl, ?_, he0id, ?_, ?_⟩
      · rw [hres2]; exact List.length_take_le _ _
      · intro e he
        rw [hres2] at he
        have h1 := List.take_subset _ _ he
        have h2 := (List.mem_insertionSort (knnLE e0)).mp h1
        have h3 := (List.mem_filter.mp h2).2
        exact of_decide_eq_true h3
      · rw [hres2, hfilter, insertionSort_cons_min e0 tl (knnLE_self_min e0),
          List.take_succ_cons]
        rfl
      · rw [distSq_self]
        simp
      · rw [hres2]
        have htake := List.Pairwise.sublist (List.take_sublist (k + 1) _) hpair
        have himp : ∀ {a b : Event}, knnLE e0 a b →
            Real.sqrt ((distSq e0 a : ℚ) : ℝ) ≤ Real.sqrt ((distSq e0 b : ℚ) : ℝ) := by
          intro a b h
          exact Real.sqrt_le_sqrt (Rat.cast_le.mpr h)
        exact (htake.imp himp).chain'

theorem knn_witness_eval : get_knn 1 eventsW 5 = some knnResW := by
  have hle : knnLE ⟨1, 0, 0, 0, 0⟩ ⟨1, 0, 0, 0, 0⟩ ⟨2, 1, 0, 0, 5⟩ := by
    unfold knnLE distSq
    norm_num
  simp [get_knn, eventsW, knnResW, List.find?, List.insertionSort,
    List.orderedInsert, hle]

theorem knn_shape_witness :
    knnResW.length ≤ 5 + 1
    ∧ (∀ e ∈ knnResW, 1 ≤ e.id)
    ∧ ∃ e0, eventsW.find? (fun e => e.id == 1) = some e0
        ∧ knnResW.head? = some e0
        ∧ e0.id = 1
        ∧ Real.sqrt ((distSq e0 e0 : ℚ) : ℝ) = 0
        ∧ knnResW.Chain' (fun a b =>
            Real.sqrt ((distSq e0 a : ℚ) : ℝ) ≤ Real.sqrt ((distSq e0 b : ℚ) : ℝ)) :=
  knn_shape eventsW 1 5 knnResW (by decide) knn_witness_eval

/-- C4: the arrival selection for an event pair never contains two rows with
the same (station, phase), every retained row belongs to the primary or the
secondary event, and each (station, phase) key present in either event's
picks is represented by exactly one retained record. -/
theorem pair_arrival_selection (df : List Phase) (evid0 evidB : Nat) :
    (drop_duplicates (get_phases [evid0, evidB] df)).Pairwise
      (fun p q => ¬(p.sta = q.sta ∧ p.phase = q.phase))
    ∧ (∀ p ∈ drop_duplicates (get_phases [evid0, evidB] df),
        p.evid = evid0 ∨ p.evid = evidB)
    ∧ (∀ p ∈ df, (p.evid = evid0 ∨ p.evid = evidB) →
        ∃ q ∈ drop_duplicates (get_phases [evid0, evidB] df),
          q.sta = p.sta ∧ q.phase = p.phase) := by
  refine ⟨dropDupSeen_pairwise _ _, ?_, ?_⟩
  · intro p hp
    have hsub := dropDupSeen_subset _ _ p hp
    have hmem := (mem_get_phases [evid0, evidB] df p).mp hsub
    simpa using hmem.2
  · intro p hp hid
    have hmemg : p ∈ get_phases [evid0, evidB] df :=
      (mem_get_phases [evid0, evidB] df p).mpr ⟨hp, by simpa using hid⟩
    rcases dropDupSeen_covers _ [] p hmemg with hseen | hex
    · simp at hseen
    · exact hex

theorem pair_arrival_selection_witness :
    ∃ q ∈ drop_duplicates (get_phases [1, 2] phasesW),
      q.sta = "STA1" ∧ q.phase = "P" :=
  (pair_arrival_selection phasesW 1 2).2.2 ⟨1, "STA1", "HHZ", "P", "NET", 1⟩
    (by decide) (by decide)

/-- C5: on a message sequence holding exactly N sentinels the receive loop
returns exactly at the point where the Nth sentinel has been handled — the
consumed prefix contains all N sentinels and ends with one, whatever results
and no-ops are interleaved — and with fewer than N sentinels the loop never
returns (it stays blocked in the receive). -/
theorem aggregator_termination (n : Nat) (msgs : List Msg) :
    (countDone msgs = n →
      ∃ pre suf st, msgs = pre ++ suf
        ∧ write_loop n initWriter msgs = some (st, suf)
        ∧ countDone pre = n
        ∧ (0 < n → ∃ pre0, pre = pre0 ++ [Msg.done] ∧ countDone pre0 = n - 1))
    ∧ (countDone msgs < n → write_loop n initWriter msgs = none) := by
  constructor
  · intro hcount
    by_cases hn : n = 0
    · subst hn
      exact ⟨[], msgs, initWriter, by simp,
        write_loop_at_target 0 initWriter msgs rfl, rfl, by omega⟩
    · have hpos : 0 < n := Nat.pos_of_ne_zero hn
      have h0 : initWriter.stop_count < n := by simpa [initWriter] using hpos
      have hle : n ≤ initWriter.stop_count + countDone msgs := by
        simp [initWriter, hcount]
      obtain ⟨pre, suf, hsplit, hrun, hc, pre0, hp0, hc0⟩ :=
        write_loop_reaches n msgs initWriter h0 hle
      refine ⟨pre, suf, _, hsplit, hrun, ?_, fun _ => ⟨pre0, hp0, ?_⟩⟩
      · simpa [initWriter] using hc
      · simp [initWriter] at hc0
        omega
  · intro h
    exact write_loop_blocked n msgs initWriter (by simp [initWriter]; omega)

theorem aggregator_termination_witness :
    ∃ pre suf st, msgsW = pre ++ suf
      ∧ write_loop 2 initWriter msgsW = some (st, suf)
      ∧ countDone pre = 2
      ∧ (0 < 2 → ∃ pre0, pre = pre0 ++ [Msg.done] ∧ countDone pre0 = 2 - 1) :=
  (aggregator_termination 2 msgsW).1 (by decide)

/-- C6: after the writer has appended M results its logical row index equals
M, the written rows are exactly the M results, and the allocated capacity of
the (jointly resized) output columns is the smallest multiple of the block
size that is at least M; a single step grows capacity by either zero or one
whole block, and every state the receive loop returns arises by folding the
step over the consumed prefix. -/
theorem output_capacity_blocks (msgs : List Msg) :
    (msgs.foldl writeStep initWriter).idx = countResults msgs
    ∧ (msgs.foldl writeStep initWriter).rows.length = countResults msgs
    ∧ (msgs.foldl writeStep initWriter).cap % OUTPUT_BLOCK_SIZE = 0
    ∧ countResults msgs ≤ (msgs.foldl writeStep initWriter).cap
    ∧ (∀ c, c % OUTPUT_BLOCK_SIZE = 0 → countResults msgs ≤ c →
        (msgs.foldl writeStep initWriter).cap ≤ c)
    ∧ (∀ (st : WriterState) (m : Msg),
        (writeStep st m).cap = st.cap ∨ (writeStep st m).cap = st.cap + OUTPUT_BLOCK_SIZE)
    ∧ (∀ (n : Nat) (st : WriterState) (suf : List Msg),
        write_loop n initWriter msgs = some (st, suf) →
        ∃ pre, msgs = pre ++ suf ∧ st = pre.foldl writeStep initWriter) := by
  have hidx : (msgs.foldl writeStep initWriter).idx = countResults msgs := by
    rw [foldl_writeStep_idx]
    simp [initWriter]
  obtain ⟨hlen, hmod, hle, hlt⟩ := writerInv_foldl msgs
  refine ⟨hidx, ?_, hmod, ?_, ?_, ?_, ?_⟩
  · rw [← hlen, hidx]
  · rw [← hidx]
    exact hle
  · intro c hc hcge
    exact writerInv_cap_min _ ⟨hlen, hmod, hle, hlt⟩ c hc (by rw [hidx]; exact hcge)
  · intro st m
    cases m with
    | noop => exact Or.inl rfl
    | done => exact Or.inl rfl
    | result d =>
        by_cases hb : st.idx % OUTPUT_BLOCK_SIZE = 0
        · exact Or.inr (by simp [writeStep, hb])
        · exact Or.inl (by simp [writeStep, hb])
  · intro n st suf h
    exact write_loop_some_decomp n msgs initWriter st suf h

theorem output_capacity_witness :
    ([Msg.result sampleData].foldl writeStep initWriter).cap ≤ 1000 :=
  (output_capacity_blocks [Msg.result sampleData]).2.2.2.2.1 1000 (by decide) (by decide)

/-- C7 (counterexample): with corr_min 2, arrival `arrErr` accepts its first
channel (coefficient 2), raises on its second, and never reaches its third
channel (coefficient 5); the following arrival `arrOk` would yield a result.
The pair loop sends exactly one message — the pre-error best with coefficient
2, not 5 — and nothing at all for `arrOk`, so the error is not confined to
the failing channel as the claim states. -/
theorem channel_error_aborts_cex :
    (correlatePair 2 1 2 [arrErr, arrOk]).1.length = 1
    ∧ resultDatas (correlatePair 2 1 2 [arrErr, arrOk]).1
        = [⟨1, 2, "STA1", "P", "HHZ", 1, 2⟩]
    ∧ (correlatePair 2 1 2 [arrErr, arrOk]).2 = true := by
  refine ⟨?_, ?_, ?_⟩ <;> decide

/-- C7 (amended): an error while processing one channel still triggers the
unconditional finalization for that arrival — the best candidate gathered
from the channels before the error is emitted — but the error then
propagates: the remaining channels of that arrival, the remaining arrivals
of the pair and the remaining neighbour pairs of the primary event are
aborted; the per-event handler in `main` logs it, so the worker continues
with its next assigned primary event. -/
theorem channel_error_aborts (cm : ℚ) (e0 eB : Nat) (pick : Phase)
    (preC postC : Chans) (nm : String) (preA postA : List Arrival)
    (hpre : chanErrFree preC) (hpreA : ∀ a ∈ preA, arrivalErrFree a) :
    correlatePair cm e0 eB
        (preA ++ ⟨pick, some (preC ++ (nm, ChanOutcome.err) :: postC)⟩ :: postA)
      = ((correlatePair cm e0 eB preA).1
          ++ (processArrival cm e0 eB ⟨pick, some preC⟩).1.toList, true)
    ∧ (∀ (cfg : Config) (wfp : WfProvider) (dfP : List Phase) (evidB : Nat)
          (restPairs : List Nat),
        (correlatePair cfg.corr_min e0 evidB (selectArrivals wfp e0 evidB dfP)).2
            = true →
        correlatePairs cfg wfp e0 dfP (evidB :: restPairs)
          = ((correlatePair cfg.corr_min e0 evidB
              (selectArrivals wfp e0 evidB dfP)).1, true))
    ∧ (∀ (cfg : Config) (wfp : WfProvider) (dfE : List Event) (dfP2 : List Phase)
          (e : Nat) (rest : List Nat),
        workerRun cfg wfp true true true true dfE dfP2 (e :: rest)
          = (correlate cfg wfp dfE dfP2 e).1
              ++ workerRun cfg wfp true true true true dfE dfP2 rest) := by
  refine ⟨?_, ?_, ?_⟩
  · have hproc : processArrival cm e0 eB
        ⟨pick, some (preC ++ (nm, ChanOutcome.err) :: postC)⟩
        = ((processArrival cm e0 eB ⟨pick, some preC⟩).1, true) := by
      have habort := runChannels_abort cm preC hpre nm postC
      simp only [processArrival, habort]
      cases hfin : finalizeArrival e0 eB pick (runChannels cm preC).1 <;> simp [hfin]
    induction preA with
    | nil =>
        simp only [List.nil_append, correlatePair, hproc]
        simp
    | cons a rest ih =>
        have ha : arrivalErrFree a := hpreA a (by simp)
        have hrest : ∀ x ∈ rest, arrivalErrFree x :=
          fun x hx => hpreA x (List.mem_cons_of_mem _ hx)
        have hfalse := processArrival_errFree cm e0 eB a ha
        simp only [List.cons_append, correlatePair, hfalse, Bool.false_eq_true,
          if_false, List.append_eq]
        rw [ih hrest]
        simp [List.append_assoc]
  · intro cfg wfp dfP evidB restPairs h
    simp [correlatePairs, h]
  · intro cfg wfp dfE dfP2 e rest
    simp [workerRun, workerMain]

theorem channel_error_aborts_witness :
    correlatePair 2 1 2
        ([] ++ ⟨pick1, some ([("HHZ", ChanOutcome.value 1 2)]
            ++ ("HHE", ChanOutcome.err) :: [("HHN", ChanOutcome.value 2 5)])⟩
          :: [arrOk])
      = ((correlatePair 2 1 2 []).1
          ++ (processArrival 2 1 2
              ⟨pick1, some [("HHZ", ChanOutcome.value 1 2)]⟩).1.toList, true) :=
  (channel_error_aborts 2 1 2 pick1 [("HHZ", ChanOutcome.value 1 2)]
    [("HHN", ChanOutcome.value 2 5)] "HHE" [] [arrOk] (by decide) (by decide)).1

/-- C8 (counterexample): an arrival whose waveform retrieval raises
`KeyError` executes `continue` before the try/finally region, so the pair
loop sends no message at all for it — not one message per arrival as the
claim states. -/
theorem one_message_per_arrival_cex :
    correlatePair 2 1 2 [arrMissing] = ([], false) := by
  decide

/-- C8 (amended): each arrival whose waveform retrieval succeeds causes
exactly one message (a result or a no-op) to be sent — including, via the
unconditional finalization, an arrival whose channel processing raises — but
an arrival whose waveform retrieval fails is skipped with no message, and in
an error-free pass the number of messages equals the number of arrivals with
waveform data. -/
theorem one_message_per_arrival (cm : ℚ) (e0 eB : Nat) :
    (∀ (l : List Arrival), (∀ a ∈ l, arrivalErrFree a) →
      (correlatePair cm e0 eB l).1.length
        = (l.filter (fun a => a.wf.isSome)).length)
    ∧ (∀ a : Arrival, a.wf = none → (processArrival cm e0 eB a).1 = none)
    ∧ (∀ (a : Arrival) (chans : Chans), a.wf = some chans →
        ((processArrival cm e0 eB a).1).isSome = true) := by
  refine ⟨?_, ?_, ?_⟩
  · intro l
    induction l with
    | nil => intro _; rfl
    | cons a rest ih =>
        intro h
        have ha := processArrival_errFree cm e0 eB a (h a (by simp))
        have hrest := ih (fun x hx => h x (List.mem_cons_of_mem _ hx))
        simp only [correlatePair, ha, Bool.false_eq_true, if_false]
        cases hwf : a.wf with
        | none =>
            have hm := (processArrival_none_iff cm e0 eB a).mpr hwf
            simp [hm, List.filter_cons, hwf, hrest]
        | some chans =>
            have hm : ((processArrival cm e0 eB a).1).isSome = true := by
              cases hv : (processArrival cm e0 eB a).1 with
              | none =>
                  have := (processArrival_none_iff cm e0 eB a).mp hv
                  rw [hwf] at this
                  cases this
              | some m => rfl
            obtain ⟨m, hm2⟩ := Option.isSome_iff_exists.mp hm
            simp [hm2, List.filter_cons, hwf, hrest]
  · intro a h
    exact (processArrival_none_iff cm e0 eB a).mpr h
  · intro a chans h
    cases hv : (processArrival cm e0 eB a).1 with
    | none =>
        have := (processArrival_none_iff cm e0 eB a).mp hv
        rw [h] at this
        cases this
    | some m => rfl

theorem one_message_per_arrival_witness :
    (correlatePair 2 1 2 [arrMissing, arrOk]).1.length
      = ([arrMissing, arrOk].filter (fun a => a.wf.isSome)).length :=
  (one_message_per_arrival 2 1 2).1 [arrMissing, arrOk] (by decide)

/-- C9 (counterexample): loading the event/phase catalog happens before the
try/finally region of `main`, so a worker whose catalog fails to open exits
without sending any message at all — in particular zero `StopIteration`
sentinels, not the exactly one the claim requires on every exit path.  The
same happens when the optional control file fails to open (lines 66-70) or
the HDF5 cache setup raises (lines 86-92), both of which also precede the
protected region. -/
theorem done_on_worker_exit_cex :
    workerRun ⟨2, 10⟩ (fun _ _ _ => none) false true true true [] [] [] = []
    ∧ countDone (workerRun ⟨2, 10⟩ (fun _ _ _ => none) false true true true [] [] []) = 0
    ∧ workerRun ⟨2, 10⟩ (fun _ _ _ => none) true false true true [] [] [] = []
    ∧ workerRun ⟨2, 10⟩ (fun _ _ _ => none) true true false true [] [] [] = [] :=
  ⟨rfl, rfl, rfl, rfl⟩

/-- C9 (amended): a worker sends exactly one `StopIteration`, as its final
message, on every exit path that reaches the protected try/finally region —
that is, once the event/phase catalog load, the optional control-file open,
and the HDF5 cache setup have all succeeded — including a
waveform-dataset-open failure and whatever the per-event outcomes; but a
failure in any of those three prologue stages exits without sending
anything. -/
theorem done_on_worker_exit (cfg : Config) (wfp : WfProvider) (wfOpenOk : Bool)
    (dfE : List Event) (dfP : List Phase) (assigned : List Nat) :
    countDone (workerRun cfg wfp true true true wfOpenOk dfE dfP assigned) = 1
    ∧ (workerRun cfg wfp true true true wfOpenOk dfE dfP assigned).getLast?
        = some Msg.done
    ∧ (∀ controlOk cacheOk : Bool,
        workerRun cfg wfp false controlOk cacheOk wfOpenOk dfE dfP assigned = [])
    ∧ (∀ cacheOk : Bool,
        workerRun cfg wfp true false cacheOk wfOpenOk dfE dfP assigned = [])
    ∧ workerRun cfg wfp true true false wfOpenOk dfE dfP assigned = [] := by
  refine ⟨?_, ?_, fun _ _ => rfl, fun _ => rfl, rfl⟩
  · cases wfOpenOk with
    | false => rfl
    | true =>
        rw [workerRun, workerMain]
        simp only [if_true]
        rw [countDone_append]
        have hz : countDone
            ((assigned.map (fun e => (correlate cfg wfp dfE dfP e).1)).flatten) = 0 := by
          apply countDone_flatten_zero
          intro l hl
          obtain ⟨e, _, hle⟩ := List.mem_map.mp hl
          rw [← hle]
          exact countDone_correlate cfg wfp dfE dfP e
        rw [hz]
        rfl
  · cases wfOpenOk with
    | false => rfl
    | true =>
        rw [workerRun, workerMain]
        simp only [if_true]
        exact List.getLast?_concat _

/-- C10: the channel recorded in an emitted CorrelationResult is always the
`chan` column of the arrival pick itself; the name of the waveform channel
whose window produced the winning coefficient is discarded and never
recorded, as the concrete run shows: the winning channel is named "EHZ" yet
the emitted record carries the pick's "HHN". -/
theorem recorded_chan_is_pick_chan :
    (∀ (cm : ℚ) (e0 eB : Nat) (a : Arrival) (d : CorrData),
      (processArrival cm e0 eB a).1 = some (Msg.result d) → d.chan = a.pick.chan)
    ∧ resultDatas (correlatePair 2 1 2 [arrOtherChan]).1
        = [⟨1, 2, "STA4", "P", "HHN", 1, 3⟩]
    ∧ pick4.chan ≠ "EHZ" := by
  refine ⟨?_, by decide, by decide⟩
  intro cm e0 eB a d h
  obtain ⟨_, _, _, _, _, _, hchan, _⟩ := processArrival_result cm e0 eB a d h
  exact hchan

theorem recorded_chan_witness :
    (⟨1, 2, "STA4", "P", "HHN", 1, 3⟩ : CorrData).chan = arrOtherChan.pick.chan :=
  recorded_chan_is_pick_chan.1 2 1 2 arrOtherChan ⟨1, 2, "STA4", "P", "HHN", 1, 3⟩
    (by decide)

end Ddcc
